import Mathlib

/-!
Verification of the SmartCut transcript-editing core.

The definitions below are a shallow embedding of the Python sources
(`smartcut/tools/analyze.py`, `smartcut/tools/subtitles.py`,
`smartcut/core/capcut_reader.py`).  Times, which the Python code keeps as
floats (seconds), are modelled as rationals; microsecond fields of the
persisted CapCut documents are integers, as in the JSON documents.
-/

namespace SmartCut

/-- Model of `TranscriptionWord` from `core/models.py`: a single word with timestamps. -/
structure TranscriptionWord where
  word : String
  start : ℚ
  «end» : ℚ
deriving DecidableEq, Repr

/-- Model of `TranscriptionSegment` from `core/models.py`. -/
structure TranscriptionSegment where
  id : Int
  start : ℚ
  «end» : ℚ
  text : String
  words : List TranscriptionWord
deriving DecidableEq, Repr

/-- Model of `Transcription` from `core/models.py`. -/
structure Transcription where
  language : String
  duration : ℚ
  segments : List TranscriptionSegment
deriving DecidableEq, Repr

/-- Model of `Transcription.get_all_words`: flat list of all words across all segments. -/
def Transcription.get_all_words (t : Transcription) : List TranscriptionWord :=
  (t.segments.map TranscriptionSegment.words).flatten

/-- Model of `Paragraph` from `core/models.py`. -/
structure Paragraph where
  id : Int
  start : ℚ
  «end» : ℚ
  text : String
  action : String
  reason : String
  group_id : Option Int := none
deriving DecidableEq, Repr

/-- The `Paragraph(...)` constructor call used by `find_paragraphs`:
id from the running counter, start from the first word, end from the last
word, text the space-join of the words, `action="keep"`, empty reason. -/
def mkParagraph (pid : Int) (ws : List TranscriptionWord) : Paragraph where
  id := pid
  start := ((ws.head?).map TranscriptionWord.start).getD 0
  «end» := ((ws.getLast?).map TranscriptionWord.«end»).getD 0
  text := String.intercalate " " (ws.map TranscriptionWord.word)
  action := "keep"
  reason := ""
  group_id := none

/-- The grouping of words that the `find_paragraphs` loop induces: the word
list is cut after every word whose gap to the next word reaches the
threshold.  `current` is the pending group of the Python loop. -/
def fpGroupsLoop (thr : ℚ) (current : List TranscriptionWord) :
    List TranscriptionWord → List (List TranscriptionWord)
  | [] => if current.isEmpty then [] else [current]
  | [w] => [current ++ [w]]
  | w :: next :: rest =>
    if thr ≤ next.start - w.«end» then
      (current ++ [w]) :: fpGroupsLoop thr [] (next :: rest)
    else
      fpGroupsLoop thr (current ++ [w]) (next :: rest)

/-- The word groups underlying `find_paragraphs`. -/
def fpGroups (thr : ℚ) (words : List TranscriptionWord) :
    List (List TranscriptionWord) :=
  fpGroupsLoop thr [] words

/-- Turn word groups into paragraphs, numbering them from `pid`. -/
def mkParagraphs (pid : Int) : List (List TranscriptionWord) → List Paragraph
  | [] => []
  | g :: gs => mkParagraph pid g :: mkParagraphs (pid + 1) gs

/-- The main loop of `find_paragraphs` (`tools/analyze.py`): accumulate words
into `current`; between consecutive words, flush when the pause reaches the
threshold; always flush the final pending group. -/
def fpLoop (thr : ℚ) (pid : Int) (current : List TranscriptionWord) :
    List TranscriptionWord → List Paragraph
  | [] => if current.isEmpty then [] else [mkParagraph pid current]
  | [w] => [mkParagraph pid (current ++ [w])]
  | w :: next :: rest =>
    if thr ≤ next.start - w.«end» then
      mkParagraph pid (current ++ [w]) :: fpLoop thr (pid + 1) [] (next :: rest)
    else
      fpLoop thr pid (current ++ [w]) (next :: rest)

/-- Model of `find_paragraphs` from `tools/analyze.py`. -/
def find_paragraphs (transcription : Transcription) (silence_threshold : ℚ) :
    List Paragraph :=
  fpLoop silence_threshold 0 [] transcription.get_all_words

/-- The transcription used by the worked example of the spec:
words `("hi",0,0.5)`, `("there",0.6,1.0)`, `("world",5.0,5.4)`. -/
def exampleTranscription : Transcription :=
  ⟨"en", 27/5,
    [⟨0, 0, 27/5, "hi there world",
      [⟨"hi", 0, 1/2⟩, ⟨"there", 3/5, 1⟩, ⟨"world", 5, 27/5⟩]⟩]⟩

/-- Start time of the first word of a group (`current_words[0].start`). -/
def headStart (g : List TranscriptionWord) : ℚ :=
  ((g.head?).map TranscriptionWord.start).getD 0

/-- End time of the last word of a group (`current_words[-1].end`). -/
def lastEnd (g : List TranscriptionWord) : ℚ :=
  ((g.getLast?).map TranscriptionWord.«end»).getD 0

theorem fpLoop_eq_mkParagraphs (thr : ℚ) :
    ∀ (ws : List TranscriptionWord) (pid : Int) (current : List TranscriptionWord),
      fpLoop thr pid current ws = mkParagraphs pid (fpGroupsLoop thr current ws)
  | [], pid, current => by
      by_cases h : current.isEmpty <;> simp [fpLoop, fpGroupsLoop, h, mkParagraphs]
  | [w], pid, current => by
      simp [fpLoop, fpGroupsLoop, mkParagraphs]
  | w :: next :: rest, pid, current => by
      by_cases h : thr ≤ next.start - w.«end»
      · rw [fpLoop, fpGroupsLoop, if_pos h, if_pos h, mkParagraphs,
          fpLoop_eq_mkParagraphs thr (next :: rest)]
      · rw [fpLoop, fpGroupsLoop, if_neg h, if_neg h,
          fpLoop_eq_mkParagraphs thr (next :: rest)]

theorem fpGroupsLoop_flatten (thr : ℚ) :
    ∀ (ws current : List TranscriptionWord),
      (fpGroupsLoop thr current ws).flatten = current ++ ws
  | [], current => by
      by_cases h : current.isEmpty <;>
        simp_all [fpGroupsLoop, List.isEmpty_iff]
  | [w], current => by simp [fpGroupsLoop]
  | w :: next :: rest, current => by
      by_cases h : thr ≤ next.start - w.«end»
      · rw [fpGroupsLoop, if_pos h]
        simp [fpGroupsLoop_flatten thr (next :: rest)]
      · rw [fpGroupsLoop, if_neg h, fpGroupsLoop_flatten thr (next :: rest)]
        simp

theorem fpGroupsLoop_mem_ne_nil (thr : ℚ) :
    ∀ (ws current : List TranscriptionWord), ∀ g ∈ fpGroupsLoop thr current ws, g ≠ []
  | [], current => by
      by_cases h : current.isEmpty <;>
        simp_all [fpGroupsLoop, List.isEmpty_iff]
  | [w], current => by simp [fpGroupsLoop]
  | w :: next :: rest, current => by
      by_cases h : thr ≤ next.start - w.«end»
      · rw [fpGroupsLoop, if_pos h]
        intro g hg
        rcases List.mem_cons.mp hg with hg | hg
        · subst hg; simp
        · exact fpGroupsLoop_mem_ne_nil thr (next :: rest) [] g hg
      · rw [fpGroupsLoop, if_neg h]
        exact fpGroupsLoop_mem_ne_nil thr (next :: rest) (current ++ [w])

theorem fpGroupsLoop_head (thr : ℚ) :
    ∀ (rest : List TranscriptionWord) (w : TranscriptionWord)
      (current : List TranscriptionWord),
      ∃ g gs, fpGroupsLoop thr current (w :: rest) = g :: gs ∧
        g.head? = (current ++ [w]).head?
  | [], w, current => ⟨current ++ [w], [], by simp [fpGroupsLoop]⟩
  | next :: rest, w, current => by
      by_cases h : thr ≤ next.start - w.«end»
      · exact ⟨current ++ [w], _, by rw [fpGroupsLoop, if_pos h], rfl⟩
      · obtain ⟨g, gs, heq, hh⟩ := fpGroupsLoop_head thr rest next (current ++ [w])
        refine ⟨g, gs, by rw [fpGroupsLoop, if_neg h, heq], ?_⟩
        rw [hh]
        cases current <;> simp

theorem fpGroupsLoop_chain' (thr : ℚ) :
    ∀ (ws current : List TranscriptionWord),
      List.Chain' (fun g h => thr ≤ headStart h - lastEnd g) (fpGroupsLoop thr current ws)
  | [], current => by
      by_cases h : current.isEmpty <;> simp [fpGroupsLoop, h]
  | [w], current => by simp [fpGroupsLoop]
  | w :: next :: rest, current => by
      by_cases h : thr ≤ next.start - w.«end»
      · rw [fpGroupsLoop, if_pos h]
        obtain ⟨g, gs, heq, hhead⟩ := fpGroupsLoop_head thr rest next []
        rw [heq, List.chain'_cons]
        refine ⟨?_, by rw [← heq]; exact fpGroupsLoop_chain' thr (next :: rest) []⟩
        have h1 : headStart g = next.start := by
          simp at hhead; simp [headStart, hhead]
        have h2 : lastEnd (current ++ [w]) = w.«end» := by
          simp [lastEnd]
        rw [h1, h2]; exact h
      · rw [fpGroupsLoop, if_neg h]
        exact fpGroupsLoop_chain' thr (next :: rest) (current ++ [w])

theorem mkParagraphs_length :
    ∀ (gs : List (List TranscriptionWord)) (pid : Int),
      (mkParagraphs pid gs).length = gs.length
  | [], _ => rfl
  | g :: gs, pid => by
      simp [mkParagraphs, mkParagraphs_length gs (pid + 1)]

theorem mkParagraphs_map_id :
    ∀ (gs : List (List TranscriptionWord)) (pid : Int),
      (mkParagraphs pid gs).map Paragraph.id =
        (List.range gs.length).map (fun n : Nat => pid + (n : Int))
  | [], _ => rfl
  | g :: gs, pid => by
      rw [mkParagraphs, List.map_cons, mkParagraphs_map_id gs (pid + 1),
        List.length_cons, List.range_succ_eq_map, List.map_cons, List.map_map]
      congr 1
      · simp [mkParagraph]
      · refine List.map_congr_left fun n _ => ?_
        simp [Function.comp]
        ring

theorem mkParagraphs_chain' (thr : ℚ) :
    ∀ (gs : List (List TranscriptionWord)) (pid : Int),
      List.Chain' (fun g h => thr ≤ headStart h - lastEnd g) gs →
      List.Chain' (fun p q => thr ≤ q.start - p.«end») (mkParagraphs pid gs)
  | [], _, _ => by simp [mkParagraphs]
  | [g], _, _ => by simp [mkParagraphs]
  | g :: h :: gs, pid, hc => by
      rw [List.chain'_cons] at hc
      rw [mkParagraphs, mkParagraphs, List.chain'_cons]
      exact ⟨by simpa [mkParagraph, headStart, lastEnd] using hc.1,
        mkParagraphs_chain' thr (h :: gs) (pid + 1) hc.2⟩

/-- C1: for every ordered word list and non-negative silence threshold,
`find_paragraphs` partitions the input words: the word groups it induces
flatten back to the word list with no word dropped or duplicated, every group
is non-empty, each paragraph is built from its group by `mkParagraph` (text
the space-join of the group's consecutive words, start/end the first word's
start and last word's end), the paragraph ids are the running counter
0,1,2,… in order, empty input yields the empty list, and every adjacent pair
of paragraphs is separated by a gap of at least the threshold. -/
theorem find_paragraphs_partitions (t : Transcription) (thr : ℚ)
    (hord : List.Chain' (fun a b => a.«end» ≤ b.start) t.get_all_words)
    (hthr : 0 ≤ thr) :
    (fpGroups thr t.get_all_words).flatten = t.get_all_words ∧
    (∀ g ∈ fpGroups thr t.get_all_words, g ≠ []) ∧
    find_paragraphs t thr = mkParagraphs 0 (fpGroups thr t.get_all_words) ∧
    (find_paragraphs t thr).map Paragraph.id =
      (List.range (find_paragraphs t thr).length).map (fun n : Nat => (n : Int)) ∧
    (t.get_all_words = [] → find_paragraphs t thr = []) ∧
    List.Chain' (fun p q => thr ≤ q.start - p.«end») (find_paragraphs t thr) := by
  have hmain : find_paragraphs t thr = mkParagraphs 0 (fpGroups thr t.get_all_words) :=
    fpLoop_eq_mkParagraphs thr t.get_all_words 0 []
  refine ⟨fpGroupsLoop_flatten thr t.get_all_words [],
    fpGroupsLoop_mem_ne_nil thr t.get_all_words [], hmain, ?_, ?_, ?_⟩
  · rw [hmain, mkParagraphs_map_id, mkParagraphs_length]
    simp
  · intro hnil
    rw [hmain, fpGroups, hnil]
    simp [fpGroupsLoop, mkParagraphs]
  · rw [hmain]
    exact mkParagraphs_chain' thr _ 0 (fpGroupsLoop_chain' thr t.get_all_words [])

/-- Witness for C1 at the spec's worked example. -/
theorem find_paragraphs_partitions_witness :
    List.Chain' (fun p q => (3:ℚ) ≤ q.start - p.«end»)
      (find_paragraphs exampleTranscription 3) :=
  (find_paragraphs_partitions exampleTranscription 3
    (by norm_num [exampleTranscription, Transcription.get_all_words,
      List.chain'_cons, List.chain'_singleton])
    (by norm_num)).2.2.2.2.2

/-! ### Cut-plan builder (`build_cut_plan`, `tools/analyze.py`) -/

/-- Model of `CutSegment` from `core/models.py`. -/
structure CutSegment where
  start : ℚ
  «end» : ℚ
  start_word : String := ""
  end_word : String := ""
  reason : Option String := none
deriving DecidableEq, Repr

/-- Model of `CutStats` from `core/models.py`. -/
structure CutStats where
  original_duration : ℚ
  kept_duration : ℚ
  removed_duration : ℚ
  duplicates_removed : Nat := 0
  silences_removed : Nat := 0
deriving DecidableEq, Repr

/-- Model of `CutPlan` from `core/models.py`. -/
structure CutPlan where
  keep_segments : List CutSegment := []
  remove_segments : List CutSegment := []
  stats : CutStats
deriving DecidableEq, Repr

/-- The walk of `build_cut_plan` over the sorted paragraphs, carrying
`prev_end`; returns
`(keep_segments, remove_segments, duplicates_removed, silences_removed)`. -/
def bcpLoop (thr : ℚ) (allWords : List TranscriptionWord) (prevEnd : ℚ) :
    List Paragraph → List CutSegment × List CutSegment × Nat × Nat
  | [] => ([], [], 0, 0)
  | p :: ps =>
    let silence : List CutSegment :=
      if thr ≤ p.start - prevEnd then [⟨prevEnd, p.start, "", "", some "long_silence"⟩]
      else []
    let silCount : Nat := if thr ≤ p.start - prevEnd then 1 else 0
    if p.action = "keep" then
      let paragraphWords :=
        allWords.filter fun w => p.start ≤ w.start ∧ w.start ≤ p.«end»
      let start_word := ((paragraphWords.head?).map TranscriptionWord.word).getD ""
      let end_word := ((paragraphWords.getLast?).map TranscriptionWord.word).getD ""
      let r := bcpLoop thr allWords p.«end» ps
      (⟨p.start, p.«end», start_word, end_word, none⟩ :: r.1,
        silence ++ r.2.1, r.2.2.1, silCount + r.2.2.2)
    else
      let r := bcpLoop thr allWords p.«end» ps
      (r.1, silence ++ ⟨p.start, p.«end», "", "", some p.reason⟩ :: r.2.1,
        r.2.2.1 + 1, silCount + r.2.2.2)

/-- Model of `build_cut_plan` from `tools/analyze.py`: sort the paragraphs by start,
walk them emitting keep/remove segments, then assemble the statistics. -/
def build_cut_plan (paragraphs : List Paragraph) (transcription : Transcription)
    (silence_threshold : ℚ) : CutPlan :=
  let sorted_paragraphs := paragraphs.mergeSort fun a b => a.start ≤ b.start
  let r := bcpLoop silence_threshold transcription.get_all_words 0 sorted_paragraphs
  { keep_segments := r.1
    remove_segments := r.2.1
    stats :=
      { original_duration := transcription.duration
        kept_duration := (r.1.map fun s => s.«end» - s.start).sum
        removed_duration := (r.2.1.map fun s => s.«end» - s.start).sum
        duplicates_removed := r.2.2.1
        silences_removed := r.2.2.2 } }

/-- Every keep segment emitted by the loop spans some input paragraph, and
the keep segments form a non-overlap chain whenever the input paragraphs are
well-formed and pairwise non-overlapping. -/
theorem bcpLoop_keep_invariant (thr : ℚ) (allWords : List TranscriptionWord) :
    ∀ (ps : List Paragraph) (prevEnd : ℚ),
      (∀ p ∈ ps, p.start ≤ p.«end») →
      List.Pairwise (fun p q => p.«end» ≤ q.start) ps →
      List.Chain' (fun s t : CutSegment => s.«end» ≤ t.start)
          (bcpLoop thr allWords prevEnd ps).1 ∧
        ∀ s ∈ (bcpLoop thr allWords prevEnd ps).1,
          ∃ p ∈ ps, s.start = p.start ∧ s.«end» = p.«end»
  | [], _, _, _ => by simp [bcpLoop]
  | p :: ps, prevEnd, hwf, hpw => by
      rw [List.pairwise_cons] at hpw
      have ih := bcpLoop_keep_invariant thr allWords ps p.«end»
        (fun q hq => hwf q (List.mem_cons_of_mem p hq)) hpw.2
      by_cases ha : p.action = "keep"
      · rw [bcpLoop, if_pos ha]
        constructor
        · rw [List.chain'_cons']
          refine ⟨fun t ht => ?_, ih.1⟩
          obtain ⟨q, hq, hqs, _⟩ := ih.2 t (List.mem_of_mem_head? ht)
          simpa [hqs] using hpw.1 q hq
        · intro s hs
          rcases List.mem_cons.mp hs with hs | hs
          · exact ⟨p, List.mem_cons_self p ps, by rw [hs], by rw [hs]⟩
          · obtain ⟨q, hq, h1, h2⟩ := ih.2 s hs
            exact ⟨q, List.mem_cons_of_mem p hq, h1, h2⟩
      · rw [bcpLoop, if_neg ha]
        refine ⟨ih.1, fun s hs => ?_⟩
        obtain ⟨q, hq, h1, h2⟩ := ih.2 s hs
        exact ⟨q, List.mem_cons_of_mem p hq, h1, h2⟩

/-- A `Chain'` whose every element satisfies `P` upgrades to the composite
relation carrying `P` at both ends. -/
theorem chain'_with_forall {α : Type} {P : α → Prop} {R : α → α → Prop} :
    ∀ {l : List α}, (∀ x ∈ l, P x) → List.Chain' R l →
      List.Chain' (fun a b => P a ∧ P b ∧ R a b) l
  | [], _, _ => List.chain'_nil
  | [a], _, _ => List.chain'_singleton a
  | a :: b :: l, hP, hc => by
      rw [List.chain'_cons] at hc ⊢
      exact ⟨⟨hP a (by simp), hP b (by simp), hc.1⟩,
        chain'_with_forall (fun x hx => hP x (List.mem_cons_of_mem a hx)) hc.2⟩

/-- C2 counterexample: on overlapping input paragraphs the keep segments
returned by `build_cut_plan` are not pairwise non-overlapping, refuting the
claim for arbitrary paragraph lists. -/
theorem build_cut_plan_not_always_disjoint :
    ¬ List.Pairwise (fun s t : CutSegment => s.«end» ≤ t.start ∨ t.«end» ≤ s.start)
      (build_cut_plan
        [⟨0, 0, 10, "a", "keep", "", none⟩, ⟨1, 1, 2, "b", "keep", "", none⟩]
        ⟨"en", 10, []⟩ 3).keep_segments := by
  norm_num [build_cut_plan, bcpLoop, Transcription.get_all_words, List.mergeSort,
    List.pairwise_cons]

/-- C2 (amended): `stats.kept_duration` is exactly the sum of
`end − start` over `keep_segments` for every input, and whenever the input
paragraphs each satisfy `start ≤ end` and are pairwise non-overlapping once
sorted by start, the keep segments are sorted ascending by `start` and
pairwise non-overlapping. -/
theorem build_cut_plan_invariants (paragraphs : List Paragraph)
    (t : Transcription) (thr : ℚ) :
    (build_cut_plan paragraphs t thr).stats.kept_duration =
      ((build_cut_plan paragraphs t thr).keep_segments.map
        fun s => s.«end» - s.start).sum ∧
    ((∀ p ∈ paragraphs, p.start ≤ p.«end») →
      List.Pairwise (fun p q => p.«end» ≤ q.start)
        (paragraphs.mergeSort fun a b => a.start ≤ b.start) →
      List.Pairwise (fun s u : CutSegment => s.start ≤ u.start)
        (build_cut_plan paragraphs t thr).keep_segments ∧
      List.Pairwise (fun s u : CutSegment => s.«end» ≤ u.start)
        (build_cut_plan paragraphs t thr).keep_segments) := by
  refine ⟨by simp only [build_cut_plan], ?_⟩
  intro hwf hpw
  have hwf' : ∀ p ∈ paragraphs.mergeSort fun a b => a.start ≤ b.start, p.start ≤ p.«end» :=
    fun p hp => hwf p ((List.mergeSort_perm paragraphs _).mem_iff.mp hp)
  obtain ⟨hchain, hmem⟩ := bcpLoop_keep_invariant thr t.get_all_words
    (paragraphs.mergeSort fun a b => a.start ≤ b.start) 0 hwf' hpw
  have hsegwf : ∀ s ∈ (bcpLoop thr t.get_all_words 0
      (paragraphs.mergeSort fun a b => a.start ≤ b.start)).1, s.start ≤ s.«end» := by
    intro s hs
    obtain ⟨q, hq, h1, h2⟩ := hmem s hs
    rw [h1, h2]
    exact hwf' q hq
  have hcomp := chain'_with_forall hsegwf hchain
  letI : IsTrans CutSegment (fun a b =>
      a.start ≤ a.«end» ∧ b.start ≤ b.«end» ∧ a.«end» ≤ b.start) :=
    ⟨fun a b c hab hbc => ⟨hab.1, hbc.2.1, hab.2.2.trans (hbc.1.trans hbc.2.2)⟩⟩
  have hpw' := List.chain'_iff_pairwise.mp hcomp
  have hk : (build_cut_plan paragraphs t thr).keep_segments =
      (bcpLoop thr t.get_all_words 0
        (paragraphs.mergeSort fun a b => a.start ≤ b.start)).1 := by
    simp only [build_cut_plan]
  refine ⟨?_, ?_⟩
  · rw [hk]; exact hpw'.imp fun h => h.1.trans h.2.2
  · rw [hk]; exact hpw'.imp fun h => h.2.2

/-- Witness for C2 (amended) on the spec's worked example. -/
theorem build_cut_plan_invariants_witness :
    List.Pairwise (fun s u : CutSegment => s.«end» ≤ u.start)
      (build_cut_plan
        [⟨0, 0, 1, "hi there", "keep", "", none⟩, ⟨1, 5, 27/5, "world", "keep", "", none⟩]
        exampleTranscription 3).keep_segments :=
  ((build_cut_plan_invariants
    [⟨0, 0, 1, "hi there", "keep", "", none⟩, ⟨1, 5, 27/5, "world", "keep", "", none⟩]
    exampleTranscription 3).2
    (by norm_num)
    (by norm_num [List.mergeSort, List.pairwise_cons])).2

/-- C3 counterexample: on the spec's worked example the cut plan computed by
the code has `kept_duration = 1.4` (the two keep segments span `1.0` and
`0.4` seconds), so the claimed value `0.9` is wrong. -/
theorem example_kept_duration_ne :
    (build_cut_plan (find_paragraphs exampleTranscription 3)
        exampleTranscription 3).stats.kept_duration ≠ 9/10 := by
  norm_num [build_cut_plan, bcpLoop, find_paragraphs, fpLoop, mkParagraph,
    Transcription.get_all_words, exampleTranscription, List.mergeSort]

/-- C3 (amended): on words ("hi",0,0.5), ("there",0.6,1.0), ("world",5.0,5.4)
with threshold 3.0, `find_paragraphs` yields exactly the two paragraphs
"hi there" and "world"; `build_cut_plan` yields keep segments {0,1.0} and
{5.0,5.4}, exactly one remove segment {1.0,5.0} with reason "long_silence",
`stats.kept_duration = 1.4` (not the 0.9 the claim states) and
`stats.silences_removed = 1`. -/
theorem example_cut_plan :
    find_paragraphs exampleTranscription 3 =
      [⟨0, 0, 1, "hi there", "keep", "", none⟩,
       ⟨1, 5, 27/5, "world", "keep", "", none⟩] ∧
    (build_cut_plan (find_paragraphs exampleTranscription 3)
        exampleTranscription 3).keep_segments =
      [⟨0, 1, "hi", "there", none⟩, ⟨5, 27/5, "world", "world", none⟩] ∧
    (build_cut_plan (find_paragraphs exampleTranscription 3)
        exampleTranscription 3).remove_segments =
      [⟨1, 5, "", "", some "long_silence"⟩] ∧
    (build_cut_plan (find_paragraphs exampleTranscription 3)
        exampleTranscription 3).stats.kept_duration = 7/5 ∧
    (build_cut_plan (find_paragraphs exampleTranscription 3)
        exampleTranscription 3).stats.silences_removed = 1 := by
  norm_num [build_cut_plan, bcpLoop, find_paragraphs, fpLoop, mkParagraph,
    Transcription.get_all_words, exampleTranscription, List.mergeSort]
  decide

/-! ### Timeline remapper (`map_words_to_timeline`, `tools/subtitles.py`) -/

/-- An output entry of `map_words_to_timeline`: a word placed on the
compressed (post-cut) clock. -/
structure TimelineWord where
  word : String
  start : ℚ
  «end» : ℚ
deriving DecidableEq, Repr

/-- The loop of `map_words_to_timeline`, carrying the running
`timeline_offset` (starts at 0): per segment, select the words with
`segment.start ≤ word.start < segment.end`, emit them shifted by the offset
with the end clamped to the segment bound, then advance the offset by the
segment duration. -/
def mwtLoop (words : List TranscriptionWord) (timeline_offset : ℚ) :
    List CutSegment → List TimelineWord
  | [] => []
  | segment :: rest =>
    let segment_words :=
      words.filter fun w => segment.start ≤ w.start ∧ w.start < segment.«end»
    (segment_words.map fun w =>
        ⟨w.word, timeline_offset + (w.start - segment.start),
          timeline_offset + min (w.«end» - segment.start)
            (segment.«end» - segment.start)⟩)
      ++ mwtLoop words (timeline_offset + (segment.«end» - segment.start)) rest

/-- Model of `map_words_to_timeline` from `tools/subtitles.py`. -/
def map_words_to_timeline (words : List TranscriptionWord)
    (keep_segments : List CutSegment) : List TimelineWord :=
  mwtLoop words 0 keep_segments

/-- Telescoping bound for the words selected into one segment: the emitted
spans sum to at most the segment duration minus the first word's relative
start. -/
theorem mwt_span_aux (s : CutSegment) (hD : 0 ≤ s.«end» - s.start) :
    ∀ (l : List TranscriptionWord) (offset : ℚ),
      List.Chain' (fun a b => a.«end» ≤ b.start) l →
      ((l.map fun w =>
          (offset + min (w.«end» - s.start) (s.«end» - s.start)) -
            (offset + (w.start - s.start)))).sum
        ≤ (s.«end» - s.start) - (((l.head?).map fun w => w.start - s.start).getD 0)
  | [], _, _ => by simpa using hD
  | [w], offset, _ => by
      have h1 : min (w.«end» - s.start) (s.«end» - s.start) ≤ s.«end» - s.start :=
        min_le_right _ _
      simp only [List.map_cons, List.map_nil, List.sum_cons, List.sum_nil,
        List.head?_cons, Option.map, Option.getD_some]
      linarith
  | w :: v :: l, offset, hc => by
      rw [List.chain'_cons] at hc
      have ih := mwt_span_aux s hD (v :: l) offset hc.2
      have h1 : min (w.«end» - s.start) (s.«end» - s.start) ≤ w.«end» - s.start :=
        min_le_left _ _
      have h2 : w.«end» ≤ v.start := hc.1
      simp only [List.map_cons, List.sum_cons, List.head?_cons, Option.map,
        Option.getD_some] at ih ⊢
      linarith

/-- The spans emitted by `mwtLoop` sum to at most the total keep duration,
for ordered well-formed words and well-formed segments. -/
theorem mwtLoop_sum_le (words : List TranscriptionWord)
    (hword : List.Pairwise (fun a b => a.«end» ≤ b.start) words) :
    ∀ (keeps : List CutSegment) (offset : ℚ),
      (∀ s ∈ keeps, s.start ≤ s.«end») →
      ((mwtLoop words offset keeps).map fun w => w.«end» - w.start).sum ≤
        (keeps.map fun s => s.«end» - s.start).sum
  | [], _, _ => by simp [mwtLoop]
  | s :: rest, offset, hs => by
      have hD : 0 ≤ s.«end» - s.start := by
        have := hs s (List.mem_cons_self s rest)
        linarith
      have hfil : List.Chain' (fun a b => a.«end» ≤ b.start)
          (words.filter fun w => s.start ≤ w.start ∧ w.start < s.«end») :=
        (hword.filter _).chain'
      have haux := mwt_span_aux s hD
        (words.filter fun w => s.start ≤ w.start ∧ w.start < s.«end») offset hfil
      have hhead : 0 ≤ ((((words.filter fun w =>
          s.start ≤ w.start ∧ w.start < s.«end»).head?).map
            fun w => w.start - s.start).getD 0) := by
        cases hh : (words.filter fun w => s.start ≤ w.start ∧ w.start < s.«end»).head? with
        | none => simp
        | some w =>
          have hw : w ∈ words.filter fun w => s.start ≤ w.start ∧ w.start < s.«end» :=
            List.mem_of_mem_head? (by rw [hh]; rfl)
          have := List.of_mem_filter hw
          simp only [decide_eq_true_eq] at this
          simp only [Option.map_some', Option.getD_some]
          linarith [this.1]
      have ih := mwtLoop_sum_le words hword rest
        (offset + (s.«end» - s.start)) fun u hu => hs u (List.mem_cons_of_mem s hu)
      simp only [mwtLoop, List.map_append, List.sum_append, List.map_map,
        List.map_cons, List.sum_cons]
      have hcongr : ((words.filter fun w => s.start ≤ w.start ∧ w.start < s.«end»).map
          ((fun w : TimelineWord => w.«end» - w.start) ∘ fun w =>
            (⟨w.word, offset + (w.start - s.start),
              offset + min (w.«end» - s.start) (s.«end» - s.start)⟩ : TimelineWord))).sum
          = ((words.filter fun w => s.start ≤ w.start ∧ w.start < s.«end»).map
            fun w => (offset + min (w.«end» - s.start) (s.«end» - s.start)) -
              (offset + (w.start - s.start))).sum :=
        congrArg _ (List.map_congr_left fun w _ => rfl)
      rw [hcongr]
      linarith

/-- Every word emitted by `mwtLoop` ends no later than the offset plus the
total duration of the remaining keep segments. -/
theorem mwtLoop_end_le (words : List TranscriptionWord) :
    ∀ (keeps : List CutSegment) (offset : ℚ),
      (∀ s ∈ keeps, s.start ≤ s.«end») →
      ∀ tw ∈ mwtLoop words offset keeps,
        tw.«end» ≤ offset + (keeps.map fun s => s.«end» - s.start).sum
  | [], _, _ => by simp [mwtLoop]
  | s :: rest, offset, hs => by
      intro tw htw
      have hD : 0 ≤ s.«end» - s.start := by
        have := hs s (List.mem_cons_self s rest)
        linarith
      have hrest : 0 ≤ (rest.map fun u => u.«end» - u.start).sum := by
        refine List.sum_nonneg fun x hx => ?_
        obtain ⟨u, hu, rfl⟩ := List.mem_map.mp hx
        have := hs u (List.mem_cons_of_mem s hu)
        linarith
      simp only [mwtLoop, List.mem_append] at htw
      simp only [List.map_cons, List.sum_cons]
      rcases htw with htw | htw
      · obtain ⟨w, _, rfl⟩ := List.mem_map.mp htw
        have : min (w.«end» - s.start) (s.«end» - s.start) ≤ s.«end» - s.start :=
          min_le_right _ _
        simp only
        linarith
      · have := mwtLoop_end_le words rest (offset + (s.«end» - s.start))
          (fun u hu => hs u (List.mem_cons_of_mem s hu)) tw htw
        linarith

/-- C4 counterexample: with two overlapping words inside one keep segment the
emitted spans sum to 20 while the keep segments total only 10, refuting the
claim for arbitrary word lists. -/
theorem map_words_not_always_duration_preserving :
    ¬ (((map_words_to_timeline [⟨"a", 0, 10⟩, ⟨"b", 0, 10⟩]
          [⟨0, 10, "", "", none⟩]).map fun w => w.«end» - w.start).sum ≤
        (([⟨0, 10, "", "", none⟩] : List CutSegment).map
          fun s => s.«end» - s.start).sum) := by
  norm_num [map_words_to_timeline, mwtLoop]

/-- C4 (amended): for words that are well-formed (`start ≤ end`) and ordered
without overlap, and keep segments each with `start ≤ end`, the remapper is
duration-preserving: the output spans sum to at most the total keep-segment
duration, and every emitted word (in particular the last) ends no later than
the total keep-segment duration on the compressed clock. -/
theorem map_words_duration_preserving (words : List TranscriptionWord)
    (keep_segments : List CutSegment)
    (hwords : ∀ w ∈ words, w.start ≤ w.«end»)
    (horder : List.Chain' (fun a b => a.«end» ≤ b.start) words)
    (hsegs : ∀ s ∈ keep_segments, s.start ≤ s.«end») :
    ((map_words_to_timeline words keep_segments).map
        fun w => w.«end» - w.start).sum ≤
      (keep_segments.map fun s => s.«end» - s.start).sum ∧
    ∀ tw ∈ map_words_to_timeline words keep_segments,
      tw.«end» ≤ (keep_segments.map fun s => s.«end» - s.start).sum := by
  have hcomp := chain'_with_forall hwords horder
  letI : IsTrans TranscriptionWord (fun a b =>
      a.start ≤ a.«end» ∧ b.start ≤ b.«end» ∧ a.«end» ≤ b.start) :=
    ⟨fun a b c hab hbc => ⟨hab.1, hbc.2.1, hab.2.2.trans (hbc.1.trans hbc.2.2)⟩⟩
  have hpw := (List.chain'_iff_pairwise.mp hcomp).imp
    fun h => h.2.2
  refine ⟨mwtLoop_sum_le words hpw keep_segments 0 hsegs, fun tw htw => ?_⟩
  have := mwtLoop_end_le words keep_segments 0 hsegs tw htw
  linarith

/-- Witness for C4 (amended) on the spec's worked example. -/
theorem map_words_duration_preserving_witness :
    ((map_words_to_timeline exampleTranscription.get_all_words
        [⟨0, 1, "hi", "there", none⟩, ⟨5, 27/5, "world", "world", none⟩]).map
          fun w => w.«end» - w.start).sum ≤
      (([⟨0, 1, "hi", "there", none⟩, ⟨5, 27/5, "world", "world", none⟩] :
          List CutSegment).map fun s => s.«end» - s.start).sum :=
  (map_words_duration_preserving exampleTranscription.get_all_words _
    (by norm_num [exampleTranscription, Transcription.get_all_words])
    (by norm_num [exampleTranscription, Transcription.get_all_words,
      List.chain'_cons, List.chain'_singleton])
    (by norm_num)).1

/-! ### Caption line grouper (`group_words_into_lines`, `tools/subtitles.py`) -/

/-- A subtitle line dict as produced by `group_words_into_lines`. -/
structure SubLine where
  start : ℚ
  «end» : ℚ
  text : String
deriving DecidableEq, Repr

/-- The loop of `group_words_into_lines`, keeping the pending words and the
pending text; each flushed line is returned as the list of its words paired
with its text.  Before appending a word, if the pending line is non-empty and
either the word count has reached `max_words` or appending would exceed
`max_chars`, the pending line is flushed first. -/
def gwilGroupsLoop (max_words max_chars : Nat)
    (current_line_words : List TimelineWord) (current_line_text : String) :
    List TimelineWord → List (List TimelineWord × String)
  | [] =>
    if current_line_words.isEmpty then []
    else [(current_line_words, current_line_text)]
  | word :: rest =>
    let word_text := word.word.trim
    let test_text := (current_line_text ++ " " ++ word_text).trim
    if (max_words ≤ current_line_words.length ∨ max_chars < test_text.length)
        ∧ ¬ current_line_words.isEmpty then
      (current_line_words, current_line_text) ::
        gwilGroupsLoop max_words max_chars [word] (("" ++ " " ++ word_text).trim) rest
    else
      gwilGroupsLoop max_words max_chars (current_line_words ++ [word]) test_text rest

/-- Model of `group_words_into_lines` from `tools/subtitles.py`: each line carries the
start of its first word, the end of its last word, and the accumulated text. -/
def group_words_into_lines (words : List TimelineWord)
    (max_words max_chars : Nat) : List SubLine :=
  if words.isEmpty then []
  else
    (gwilGroupsLoop max_words max_chars [] "" words).map fun gl =>
      ⟨((gl.1.head?).map TimelineWord.start).getD 0,
        ((gl.1.getLast?).map TimelineWord.«end»).getD 0, gl.2⟩

/-- Invariant of the grouping loop: provided `1 ≤ max_words` and the pending
line satisfies the bounds, every flushed line holds at most `max_words` words
and, when it was built from two or more words, at most `max_chars`
characters. -/
theorem gwilGroupsLoop_bounds (max_words max_chars : Nat)
    (hmw : 1 ≤ max_words) :
    ∀ (ws cur : List TimelineWord) (txt : String),
      cur.length ≤ max_words →
      (2 ≤ cur.length → txt.length ≤ max_chars) →
      ∀ gl ∈ gwilGroupsLoop max_words max_chars cur txt ws,
        gl.1.length ≤ max_words ∧ (2 ≤ gl.1.length → gl.2.length ≤ max_chars)
  | [], cur, txt, hlen, htxt => by
      by_cases h : cur.isEmpty <;> simp_all [gwilGroupsLoop]
  | word :: rest, cur, txt, hlen, htxt => by
      simp only [gwilGroupsLoop]
      split
      · rename_i hcond
        intro gl hgl
        rcases List.mem_cons.mp hgl with hgl | hgl
        · subst hgl
          exact ⟨hlen, htxt⟩
        · refine gwilGroupsLoop_bounds max_words max_chars hmw rest [word] _
            (by simpa using hmw) (by simp) gl hgl
      · rename_i hcond
        rcases Decidable.not_and_iff_or_not.mp hcond with hcond | hcond
        · push_neg at hcond
          have hlt : cur.length < max_words := hcond.1
          refine gwilGroupsLoop_bounds max_words max_chars hmw rest (cur ++ [word]) _
            (by simp; omega) (fun _ => by simpa using hcond.2)
        · have hnil : cur = [] := by
            simpa [List.isEmpty_iff] using hcond
          subst hnil
          refine gwilGroupsLoop_bounds max_words max_chars hmw rest [word] _
            (by simpa using hmw) (by simp)

/-- C7 counterexample: with `max_words = 0` the grouper still emits a line
holding one word, so a line with more than `max_words` words is emitted. -/
theorem group_words_max_words_zero :
    ¬ ∀ gl ∈ gwilGroupsLoop 0 45 [] "" [⟨"a", 0, 1⟩], gl.1.length ≤ 0 := by
  decide

/-- C7 (amended): provided `max_words ≥ 1`, the grouper never emits a line of
more than `max_words` words, every emitted line built from two or more words
has text of at most `max_chars` characters, and `group_words_into_lines` is
exactly the per-line rendering (first word's start, last word's end, text) of
those groups. -/
theorem group_words_into_lines_bounds (words : List TimelineWord)
    (max_words max_chars : Nat) (hmw : 1 ≤ max_words) :
    (∀ gl ∈ gwilGroupsLoop max_words max_chars [] "" words,
      gl.1.length ≤ max_words ∧ (2 ≤ gl.1.length → gl.2.length ≤ max_chars)) ∧
    group_words_into_lines words max_words max_chars =
      (gwilGroupsLoop max_words max_chars [] "" words).map fun gl =>
        ⟨((gl.1.head?).map TimelineWord.start).getD 0,
          ((gl.1.getLast?).map TimelineWord.«end»).getD 0, gl.2⟩ := by
  refine ⟨gwilGroupsLoop_bounds max_words max_chars hmw words [] ""
    (by simp) (by simp), ?_⟩
  cases words with
  | nil => simp [group_words_into_lines, gwilGroupsLoop]
  | cons w ws => simp [group_words_into_lines]

/-- Witness for C7 (amended) at the default limits. -/
theorem group_words_into_lines_bounds_witness :
    group_words_into_lines [⟨"hello", 0, 1⟩, ⟨"world", 1, 2⟩] 8 45 =
      (gwilGroupsLoop 8 45 [] "" [⟨"hello", 0, 1⟩, ⟨"world", 1, 2⟩]).map fun gl =>
        ⟨((gl.1.head?).map TimelineWord.start).getD 0,
          ((gl.1.getLast?).map TimelineWord.«end»).getD 0, gl.2⟩ :=
  (group_words_into_lines_bounds [⟨"hello", 0, 1⟩, ⟨"world", 1, 2⟩] 8 45
    (by norm_num)).2

/-! ### Duplicate resolver (`detect_duplicates_in_paragraphs`,
`tools/analyze.py`) -/

/-- Model of `DuplicateGroup` from `core/models.py`: an advisory grouping decision of
the external oracle. -/
structure DuplicateGroup where
  block_ids : List Int
  keep : Int
  remove : List Int
  reason : String
deriving DecidableEq, Repr

/-- Membership of an id in the `remove_ids` set collected by
`detect_duplicates_in_paragraphs`. -/
def inRemoveIds (groups : List DuplicateGroup) (i : Int) : Bool :=
  groups.any fun g => g.remove.contains i

/-- The `group_map` lookup of `detect_duplicates_in_paragraphs`: the Python
dict assigns each block id the last group (in iteration order) whose
`block_ids` contains it. -/
def groupMapGet (groups : List DuplicateGroup) (i : Int) : Option DuplicateGroup :=
  (groups.filter fun g => g.block_ids.contains i).getLast?

/-- The per-paragraph update of `detect_duplicates_in_paragraphs`: removed
ids become `action="remove"` with the mapped group's reason and keep id
(plain `"duplicate_take"` and no group when the id maps to no group), other
group members become the `best_take` survivor, the rest pass through. -/
def dd_update (groups : List DuplicateGroup) (p : Paragraph) : Paragraph :=
  if inRemoveIds groups p.id then
    match groupMapGet groups p.id with
    | some g =>
        { p with
          action := "remove"
          reason := "duplicate_take: " ++ g.reason
          group_id := some g.keep }
    | none =>
        { p with action := "remove", reason := "duplicate_take", group_id := none }
  else if (groupMapGet groups p.id).isSome then
    { p with action := "keep", reason := "best_take", group_id := some p.id }
  else p

/-- Model of `detect_duplicates_in_paragraphs` from `tools/analyze.py`, as a function
of the oracle's returned groups. -/
def detect_duplicates_apply (paragraphs : List Paragraph)
    (groups : List DuplicateGroup) : List Paragraph :=
  paragraphs.map (dd_update groups)

/-- With pairwise-disjoint `block_ids`, the filter underlying `group_map`
retains exactly the one group containing the id. -/
theorem filter_block_ids_eq :
    ∀ (groups : List DuplicateGroup),
      List.Pairwise (fun g h => ∀ i, i ∈ g.block_ids → i ∉ h.block_ids) groups →
      ∀ g ∈ groups, ∀ i ∈ g.block_ids,
        groups.filter (fun h => h.block_ids.contains i) = [g]
  | [], _, g, hg => absurd hg (List.not_mem_nil g)
  | a :: gs, hdisj, g, hg => by
      rw [List.pairwise_cons] at hdisj
      intro i hi
      by_cases hai : i ∈ a.block_ids
      · have hga : g = a := by
          rcases List.mem_cons.mp hg with h | h
          · exact h
          · exact absurd hi (hdisj.1 g h i hai)
        subst hga
        have hnil : gs.filter (fun h => h.block_ids.contains i) = [] := by
          rw [List.filter_eq_nil_iff]
          intro h hh
          simpa using hdisj.1 h hh i hai
        rw [List.filter_cons, if_pos (by simpa using hai), hnil]
      · have hga : g ≠ a := fun he => hai (he ▸ hi)
        have hgs : g ∈ gs := (List.mem_cons.mp hg).resolve_left hga
        have hrec := filter_block_ids_eq gs hdisj.2 g hgs i hi
        rw [List.filter_cons, if_neg (by simpa using hai), hrec]

/-- With disjoint groups, `group_map` resolves an id to the group whose
`block_ids` contains it. -/
theorem groupMapGet_eq (groups : List DuplicateGroup)
    (hdisj : List.Pairwise (fun g h => ∀ i, i ∈ g.block_ids → i ∉ h.block_ids) groups)
    (g : DuplicateGroup) (hg : g ∈ groups) (i : Int) (hi : i ∈ g.block_ids) :
    groupMapGet groups i = some g := by
  rw [groupMapGet, filter_block_ids_eq groups hdisj g hg i hi]
  rfl

/-- An id contained in no group's `block_ids` resolves to no group. -/
theorem groupMapGet_none (groups : List DuplicateGroup) (i : Int)
    (h : ∀ g ∈ groups, i ∉ g.block_ids) : groupMapGet groups i = none := by
  rw [groupMapGet, List.filter_eq_nil_iff.mpr fun g hg => by simpa using h g hg]
  rfl

theorem inRemoveIds_true {groups : List DuplicateGroup} {i : Int}
    (g : DuplicateGroup) (hg : g ∈ groups) (hi : i ∈ g.remove) :
    inRemoveIds groups i = true := by
  simp only [inRemoveIds, List.any_eq_true]
  exact ⟨g, hg, by simpa using hi⟩

theorem inRemoveIds_false {groups : List DuplicateGroup} {i : Int}
    (h : ∀ g ∈ groups, i ∉ g.remove) : inRemoveIds groups i = false := by
  simp only [inRemoveIds, List.any_eq_false]
  intro g hg
  simpa using h g hg

/-- C5 counterexample: a group whose `remove` list holds an id absent from
its `block_ids` yields reason `"duplicate_take"` — without the colon suffix
and the group's reason — and no `group_id`, contradicting the claim. -/
theorem detect_duplicates_dangling_remove :
    ¬ ∀ p ∈ detect_duplicates_apply [⟨0, 0, 1, "x", "keep", "", none⟩]
          [⟨[], 1, [0], "r"⟩],
        ∀ g ∈ ([⟨[], 1, [0], "r"⟩] : List DuplicateGroup),
          p.id ∈ g.remove →
            p.reason = "duplicate_take: " ++ g.reason ∧ p.group_id = some g.keep := by
  decide

/-- C5 (amended): provided every group's `remove` ids are among its own
`block_ids` and no id belongs to two groups' `block_ids`,
`detect_duplicates_in_paragraphs` rewrites each paragraph exactly as the
claim states: removed members get `action="remove"`, reason
`"duplicate_take: "` followed by that group's reason and `group_id` the
group's keep id; group members not removed get `action="keep"`,
`reason="best_take"` and their own id as `group_id`; every other paragraph is
returned unchanged. -/
theorem detect_duplicates_spec (paragraphs : List Paragraph)
    (groups : List DuplicateGroup)
    (hsub : ∀ g ∈ groups, ∀ i ∈ g.remove, i ∈ g.block_ids)
    (hdisj : List.Pairwise (fun g h => ∀ i, i ∈ g.block_ids → i ∉ h.block_ids) groups) :
    detect_duplicates_apply paragraphs groups = paragraphs.map (dd_update groups) ∧
    ∀ p : Paragraph,
      (∀ g ∈ groups, p.id ∈ g.remove →
        dd_update groups p =
          { p with
            action := "remove"
            reason := "duplicate_take: " ++ g.reason
            group_id := some g.keep }) ∧
      ((∃ g ∈ groups, p.id ∈ g.block_ids) → (∀ g ∈ groups, p.id ∉ g.remove) →
        dd_update groups p =
          { p with action := "keep", reason := "best_take", group_id := some p.id }) ∧
      ((∀ g ∈ groups, p.id ∉ g.remove ∧ p.id ∉ g.block_ids) →
        dd_update groups p = p) := by
  refine ⟨rfl, fun p => ⟨?_, ?_, ?_⟩⟩
  · intro g hg hrem
    rw [dd_update, if_pos (inRemoveIds_true g hg hrem),
      groupMapGet_eq groups hdisj g hg p.id (hsub g hg p.id hrem)]
  · rintro ⟨g, hg, hblock⟩ hnorem
    rw [dd_update, if_neg (by simp [inRemoveIds_false hnorem]),
      if_pos (by rw [groupMapGet_eq groups hdisj g hg p.id hblock]; rfl)]
  · intro hnone
    rw [dd_update, if_neg (by simp [inRemoveIds_false fun g hg => (hnone g hg).1]),
      if_neg (by rw [groupMapGet_none groups p.id fun g hg => (hnone g hg).2]; simp)]

/-- Witness for C5 (amended) on a concrete oracle response. -/
theorem detect_duplicates_spec_witness :
    dd_update [⟨[0, 1], 1, [0], "repeat"⟩] ⟨0, 0, 1, "a", "keep", "", none⟩ =
      { (⟨0, 0, 1, "a", "keep", "", none⟩ : Paragraph) with
        action := "remove"
        reason := "duplicate_take: " ++ "repeat"
        group_id := some (1 : Int) } :=
  ((detect_duplicates_spec [] [⟨[0, 1], 1, [0], "repeat"⟩]
      (by decide) (by simp)).2 ⟨0, 0, 1, "a", "keep", "", none⟩).1
    ⟨[0, 1], 1, [0], "repeat"⟩ (by decide) (by decide)

/-! ### CapCut project documents (`core/capcut_reader.py`)

The two JSON documents are modelled structurally: the fields the code reads
or writes are record fields, all remaining JSON content is carried opaquely
in `extra` fields, which mutation must preserve.  Persisted times are
integer microseconds, as in the JSON. -/

/-- Model of `MICROSECONDS_PER_SECOND` from `config.py`. -/
def MICROSECONDS_PER_SECOND : Int := 1000000

/-- Python `int(x)`: truncation toward zero of a float, here of a rational. -/
def pyInt (x : ℚ) : Int := if 0 ≤ x then ⌊x⌋ else ⌈x⌉

/-- A `target_timerange`/`source_timerange` JSON object; fields read through
`.get(..., 0)` default to 0. -/
structure TimeRange where
  start : Int := 0
  duration : Int := 0
deriving DecidableEq, Repr

/-- A track segment of the content document.  Besides the positional fields
the code touches, a segment carries arbitrary further JSON fields, modelled
opaquely by `extra`; `template.copy()` copies them along. -/
structure Seg where
  id : String := ""
  material_id : String := ""
  target_timerange : TimeRange := {}
  source_timerange : TimeRange := {}
  extra : String := ""
deriving DecidableEq, Repr

/-- A track of the content document. -/
structure Track where
  type : String := ""
  segments : List Seg := []
  extra : String := ""
deriving DecidableEq, Repr

/-- An entry of `materials.videos` in the content document. -/
structure VideoMaterial where
  id : String := ""
  path : String := ""
  duration : Int := 0
  width : Int := 0
  height : Int := 0
  extra : String := ""
deriving DecidableEq, Repr

/-- The loaded `draft_info.json` content document. -/
structure ContentDoc where
  id : String := ""
  name : String := ""
  duration : Int := 0
  update_time : Int := 0
  tracks : List Track := []
  materials_videos : List VideoMaterial := []
  extra : String := ""
deriving DecidableEq, Repr

/-- The loaded `draft_meta_info.json` metadata document (an absent file loads
as the empty dict, i.e. all defaults). -/
structure MetaDoc where
  draft_id : String := ""
  draft_name : String := ""
  draft_root_path : String := ""
  tm_duration : Int := 0
  tm_draft_modified : Int := 0
  extra : String := ""
deriving DecidableEq, Repr

/-- The opaque non-positional content of the neutral default segment built by
`_build_video_segment` when no template exists (`clip`, `speed`,
`render_index`). -/
def neutralSegDefaults : String :=
  "clip:neutral speed:1.0 render_index:0"

/-- Model of `_find_video_track`: the first track of type `"video"`, if any. -/
def _find_video_track (c : ContentDoc) : Option Track :=
  c.tracks.find? fun t => t.type == "video"

/-- Model of `_find_material_id_for_path`: the id of the first video material whose
path equals the given path. -/
def _find_material_id_for_path (c : ContentDoc) (video_path : String) :
    Option String :=
  (c.materials_videos.find? fun mat => mat.path == video_path).map
    VideoMaterial.id

/-- Model of `_build_video_segment`: start from the template segment (or the neutral
defaults when none exists), then override id, material and the two time
ranges. -/
def _build_video_segment (material_id : String)
    (timeline_start_us source_start_us duration_us : Int)
    (template : Option Seg) (fresh_id : String) : Seg :=
  let base : Seg :=
    match template with
    | some t => t
    | none => { extra := neutralSegDefaults }
  { base with
    id := fresh_id
    material_id := material_id
    target_timerange := ⟨timeline_start_us, duration_us⟩
    source_timerange := ⟨source_start_us, duration_us⟩ }

/-- Model of `int(seg["start"] * MICROSECONDS_PER_SECOND)` of `apply_cut_plan`. -/
def sourceStartUs (s : CutSegment) : Int :=
  pyInt (s.start * (MICROSECONDS_PER_SECOND : ℚ))

/-- Model of `int(seg["end"] * MICROSECONDS_PER_SECOND)` of `apply_cut_plan`. -/
def sourceEndUs (s : CutSegment) : Int :=
  pyInt (s.«end» * (MICROSECONDS_PER_SECOND : ℚ))

/-- Model of `duration_us = source_end_us - source_start_us` of `apply_cut_plan`. -/
def segDurationUs (s : CutSegment) : Int :=
  sourceEndUs s - sourceStartUs s

/-- The loop of `apply_cut_plan` building the fresh back-to-back segments,
carrying `timeline_offset_us`; `freshIds k` supplies the uuid generated for
the `k`-th new segment. -/
def buildNewSegments (material_id : String) (template : Option Seg)
    (freshIds : Nat → String) (timeline_offset_us : Int) (k : Nat) :
    List CutSegment → List Seg
  | [] => []
  | seg :: rest =>
    _build_video_segment material_id timeline_offset_us (sourceStartUs seg)
        (segDurationUs seg) template (freshIds k)
      :: buildNewSegments material_id template freshIds
          (timeline_offset_us + segDurationUs seg) (k + 1) rest

/-- Replace the segment list of the first `"video"` track (the track object
`apply_cut_plan` mutates in place). -/
def setFirstVideoTrackSegments (tracks : List Track) (segs : List Seg) :
    List Track :=
  match tracks with
  | [] => []
  | t :: ts =>
    if t.type == "video" then { t with segments := segs } :: ts
    else t :: setFirstVideoTrackSegments ts segs

/-- The `max_end` computed by `_update_duration`. -/
def projectMaxEnd (c : ContentDoc) : Int :=
  c.tracks.foldl
    (fun acc t =>
      t.segments.foldl
        (fun acc' s =>
          max acc' (s.target_timerange.start + s.target_timerange.duration))
        acc)
    0

/-- Model of `_update_duration`: store the recomputed duration in both documents. -/
def _update_duration (c : ContentDoc) (m : MetaDoc) : ContentDoc × MetaDoc :=
  ({ c with duration := projectMaxEnd c }, { m with tm_duration := projectMaxEnd c })

/-- Model of `apply_cut_plan` from `core/capcut_reader.py`, acting on the loaded
documents; `keep_segments` is the cut plan's keep list in seconds. -/
def apply_cut_plan (keep_segments : List CutSegment) (video_path : String)
    (freshIds : Nat → String) (c : ContentDoc) (m : MetaDoc) :
    ContentDoc × MetaDoc :=
  if keep_segments.isEmpty then (c, m)
  else
    match _find_video_track c with
    | none => (c, m)
    | some video_track =>
      match _find_material_id_for_path c video_path with
      | none => (c, m)
      | some material_id =>
        let template : Option Seg := video_track.segments.head?
        let new_segments :=
          buildNewSegments material_id template freshIds 0 0 keep_segments
        _update_duration
          { c with tracks := setFirstVideoTrackSegments c.tracks new_segments } m

theorem buildNewSegments_length (material_id : String) (template : Option Seg)
    (freshIds : Nat → String) :
    ∀ (keeps : List CutSegment) (offset : Int) (k : Nat),
      (buildNewSegments material_id template freshIds offset k keeps).length =
        keeps.length
  | [], _, _ => rfl
  | s :: rest, offset, k => by
      simp [buildNewSegments,
        buildNewSegments_length material_id template freshIds rest]

/-- The `i`-th fresh segment built by `apply_cut_plan` starts at the offset
plus the summed durations of the preceding keep segments. -/
theorem buildNewSegments_getElem (material_id : String) (template : Option Seg)
    (freshIds : Nat → String) :
    ∀ (keeps : List CutSegment) (offset : Int) (k : Nat) (i : Nat)
      (hi : i < keeps.length),
      (buildNewSegments material_id template freshIds offset k keeps)[i]? =
        some (_build_video_segment material_id
          (offset + ((keeps.take i).map segDurationUs).sum)
          (sourceStartUs (keeps.get ⟨i, hi⟩))
          (segDurationUs (keeps.get ⟨i, hi⟩)) template (freshIds (k + i)))
  | [], _, _, i, hi => absurd hi (by simp)
  | s :: rest, offset, k, 0, hi => by
      simp [buildNewSegments]
  | s :: rest, offset, k, i + 1, hi => by
      have ih := buildNewSegments_getElem material_id template freshIds rest
        (offset + segDurationUs s) (k + 1) i (Nat.lt_of_succ_lt_succ hi)
      simp only [buildNewSegments, List.getElem?_cons_succ]
      rw [ih]
      have h1 : offset + segDurationUs s + ((rest.take i).map segDurationUs).sum
          = offset + (((s :: rest).take (i + 1)).map segDurationUs).sum := by
        rw [List.take_succ_cons, List.map_cons, List.sum_cons, add_assoc]
      have h2 : k + 1 + i = k + (i + 1) := by omega
      rw [h1, h2]
      rfl

/-- The nested fold of `_update_duration` is the maximum target end over all
segments of all tracks. -/
theorem foldl_max_flatten (endOf : Seg → Int) :
    ∀ (tracks : List Track) (acc : Int),
      tracks.foldl
          (fun a t => t.segments.foldl (fun a' s => max a' (endOf s)) a) acc =
        ((tracks.map fun t => t.segments.map endOf).flatten).foldl max acc
  | [], _ => rfl
  | t :: ts, acc => by
      rw [List.foldl_cons, List.map_cons, List.flatten_cons, List.foldl_append,
        List.foldl_map, foldl_max_flatten endOf ts]

theorem projectMaxEnd_eq (c : ContentDoc) :
    projectMaxEnd c =
      ((c.tracks.map fun t => t.segments.map fun s =>
        s.target_timerange.start + s.target_timerange.duration).flatten).foldl
        max 0 :=
  foldl_max_flatten _ c.tracks 0

/-- C10: if the loaded content document contains no track of type `"video"`,
`apply_cut_plan` returns both documents unchanged, even when keep segments
exist and a video material matches the path — a third silent no-op condition
beyond the two the spec lists. -/
theorem apply_cut_plan_no_video_track (keeps : List CutSegment)
    (video_path : String) (freshIds : Nat → String) (c : ContentDoc)
    (m : MetaDoc) (h : ∀ t ∈ c.tracks, ¬ t.type = "video") :
    apply_cut_plan keeps video_path freshIds c m = (c, m) := by
  have hvt : _find_video_track c = none := by
    rw [_find_video_track, List.find?_eq_none]
    intro t ht
    simpa using h t ht
  rw [apply_cut_plan, hvt]
  split <;> rfl

/-- Witness for C10: a project whose only track is a text track, with a
matching material and a non-empty keep list, is left untouched. -/
theorem apply_cut_plan_no_video_track_witness :
    apply_cut_plan [⟨0, 1, "", "", none⟩] "/v.mp4" (fun _ => "fresh")
        { tracks := [{ type := "text" }],
          materials_videos := [{ id := "m1", path := "/v.mp4" }] } {} =
      ({ tracks := [{ type := "text" }],
         materials_videos := [{ id := "m1", path := "/v.mp4" }] }, {}) :=
  apply_cut_plan_no_video_track _ _ _ _ _ (by decide)

/-- C6 counterexample: keep segments exist and a material matches the path,
yet with no video track in the document `apply_cut_plan` changes nothing, so
the claim's "otherwise it replaces the entire video track's segment list"
fails — its two no-op conditions are not exhaustive. -/
theorem apply_cut_plan_missing_track_counterexample :
    (([⟨0, 1, "", "", none⟩] : List CutSegment) ≠ []) ∧
    _find_material_id_for_path
        { materials_videos := [{ id := "m1", path := "/v.mp4" }] } "/v.mp4" =
      some "m1" ∧
    apply_cut_plan [⟨0, 1, "", "", none⟩] "/v.mp4" (fun _ => "fresh")
        { materials_videos := [{ id := "m1", path := "/v.mp4" }] } {} =
      ({ materials_videos := [{ id := "m1", path := "/v.mp4" }] }, {}) ∧
    ¬ ∃ t ∈ (apply_cut_plan [⟨0, 1, "", "", none⟩] "/v.mp4" (fun _ => "fresh")
        { materials_videos := [{ id := "m1", path := "/v.mp4" }] }
        ({} : MetaDoc)).1.tracks, t.type = "video" := by
  decide

/-- C6 (amended): `apply_cut_plan` leaves both documents unchanged when the
plan has no keep segments or no material matches the path (and also, see
C10, when no video track exists).  When keep segments exist, a video track
exists and a material matches, it replaces the first video track's segment
list with one fresh segment per keep segment placed back-to-back from
timeline 0: segment `i` has target start equal to the sum of the durations
of the preceding new segments, target and source duration
`int(end·1e6) − int(start·1e6)`, source start `int(start·1e6)`, and its
non-positional fields come from the first pre-existing segment (neutral
defaults if none); both documents then carry the recomputed duration, the
maximum target end over all segments of all tracks. -/
theorem apply_cut_plan_spec (keeps : List CutSegment) (video_path : String)
    (freshIds : Nat → String) (c : ContentDoc) (m : MetaDoc) :
    (keeps = [] → apply_cut_plan keeps video_path freshIds c m = (c, m)) ∧
    (_find_material_id_for_path c video_path = none →
      apply_cut_plan keeps video_path freshIds c m = (c, m)) ∧
    (∀ vt mid, keeps ≠ [] → _find_video_track c = some vt →
      _find_material_id_for_path c video_path = some mid →
      (apply_cut_plan keeps video_path freshIds c m =
        _update_duration
          { c with tracks := (setFirstVideoTrackSegments c.tracks
              (buildNewSegments mid vt.segments.head? freshIds 0 0 keeps)) } m) ∧
      (buildNewSegments mid vt.segments.head? freshIds 0 0 keeps).length =
        keeps.length ∧
      (∀ i (hi : i < keeps.length),
        (buildNewSegments mid vt.segments.head? freshIds 0 0 keeps)[i]? =
          some (_build_video_segment mid
            (((keeps.take i).map segDurationUs).sum)
            (sourceStartUs (keeps.get ⟨i, hi⟩))
            (segDurationUs (keeps.get ⟨i, hi⟩))
            vt.segments.head? (freshIds i))) ∧
      ∀ c' m', apply_cut_plan keeps video_path freshIds c m = (c', m') →
        c'.duration = ((c'.tracks.map fun t => t.segments.map fun s =>
            s.target_timerange.start + s.target_timerange.duration).flatten).foldl
            max 0 ∧
          m'.tm_duration = c'.duration) := by
  refine ⟨?_, ?_, ?_⟩
  · intro h
    subst h
    rfl
  · intro hmid
    rw [apply_cut_plan]
    split
    · rfl
    · rw [hmid]
      cases _find_video_track c <;> rfl
  · intro vt mid hne hvt hmid
    have h1 : keeps.isEmpty = false := by
      simpa [List.isEmpty_iff] using hne
    have happly : apply_cut_plan keeps video_path freshIds c m =
        _update_duration
          { c with tracks := (setFirstVideoTrackSegments c.tracks
              (buildNewSegments mid vt.segments.head? freshIds 0 0 keeps)) } m := by
      rw [apply_cut_plan, h1, hvt, hmid]
      rfl
    refine ⟨happly, buildNewSegments_length mid vt.segments.head? freshIds keeps 0 0,
      fun i hi => ?_, fun c' m' heq => ?_⟩
    · rw [buildNewSegments_getElem mid vt.segments.head? freshIds keeps 0 0 i hi,
        zero_add, Nat.zero_add]
    · rw [happly, _update_duration] at heq
      injection heq with hA hB
      subst hA
      subst hB
      exact ⟨projectMaxEnd_eq _, rfl⟩

/-- The pre-existing template track used by the C6 witness. -/
def witnessTrack : Track :=
  { type := "video",
    segments := [{ id := "old",
                   material_id := "m1",
                   target_timerange := ⟨0, 7⟩,
                   source_timerange := ⟨0, 7⟩,
                   extra := "style" }] }

/-- The content document used by the C6 witness: one video track holding one
pre-existing segment (the style template) and one matching material. -/
def witnessContent : ContentDoc :=
  { tracks := [witnessTrack],
    materials_videos := [{ id := "m1", path := "/v.mp4" }] }

/-- Witness for C6 (amended): the replacement equation at a concrete
project. -/
theorem apply_cut_plan_spec_witness :
    apply_cut_plan [⟨0, 3/2, "", "", none⟩] "/v.mp4" (fun _ => "fresh")
        witnessContent {} =
      _update_duration
        { witnessContent with tracks := (setFirstVideoTrackSegments
            witnessContent.tracks
            (buildNewSegments "m1" witnessTrack.segments.head? (fun _ => "fresh")
              0 0 [⟨0, 3/2, "", "", none⟩])) } {} :=
  ((apply_cut_plan_spec [⟨0, 3/2, "", "", none⟩] "/v.mp4" (fun _ => "fresh")
      witnessContent {}).2.2 witnessTrack "m1"
    (by decide) (by decide) (by decide)).1

/-! ### Read path: `get_video_segments` (`core/capcut_reader.py`) -/

/-- Model of `ExistingVideoMaterial` from `core/models.py` (times in seconds). -/
structure ExistingVideoMaterial where
  id : String
  path : String
  duration : ℚ
  width : Int
  height : Int
deriving DecidableEq, Repr

/-- Model of `ExistingVideoSegment` from `core/models.py` (times in seconds). -/
structure ExistingVideoSegment where
  id : String
  material_id : String
  source_path : String
  timeline_start : ℚ
  timeline_end : ℚ
  source_start : ℚ
  source_end : ℚ
  duration : ℚ
deriving DecidableEq, Repr

/-- Model of `get_video_materials`: one entry per `materials.videos` element,
durations converted to seconds. -/
def get_video_materials (c : ContentDoc) : List ExistingVideoMaterial :=
  c.materials_videos.map fun mat =>
    ⟨mat.id, mat.path, (mat.duration : ℚ) / (MICROSECONDS_PER_SECOND : ℚ),
      mat.width, mat.height⟩

/-- The `materials_map` lookup of `get_video_segments`: the dict
comprehension keeps, for each id, the last material carrying it. -/
def materialsMapGet (c : ContentDoc) (i : String) :
    Option ExistingVideoMaterial :=
  ((get_video_materials c).filter fun m => m.id == i).getLast?

/-- The `ExistingVideoSegment` entry `get_video_segments` builds for one
segment: a dangling material reference yields an empty `source_path`. -/
def videoSegEntry (c : ContentDoc) (seg : Seg) : ExistingVideoSegment :=
  let material := materialsMapGet c seg.material_id
  let source_path := (material.map ExistingVideoMaterial.path).getD ""
  let timeline_start :=
    (seg.target_timerange.start : ℚ) / (MICROSECONDS_PER_SECOND : ℚ)
  let duration :=
    (seg.target_timerange.duration : ℚ) / (MICROSECONDS_PER_SECOND : ℚ)
  ⟨seg.id, seg.material_id, source_path, timeline_start,
    timeline_start + duration,
    (seg.source_timerange.start : ℚ) / (MICROSECONDS_PER_SECOND : ℚ),
    ((seg.source_timerange.start + seg.source_timerange.duration : Int) : ℚ) /
      (MICROSECONDS_PER_SECOND : ℚ),
    duration⟩

/-- Model of `get_video_segments` from `core/capcut_reader.py`: every segment of
every `"video"` track, in order. -/
def get_video_segments (c : ContentDoc) : List ExistingVideoSegment :=
  ((c.tracks.filter fun t => t.type == "video").map fun t =>
    t.segments.map (videoSegEntry c)).flatten

/-- C9: `get_video_segments` returns one entry per segment of every
video-type track, and a segment whose `material_id` matches no video
material yields `source_path = ""` instead of failing the load. -/
theorem get_video_segments_total (c : ContentDoc) :
    get_video_segments c =
      ((c.tracks.filter fun t => t.type == "video").map fun t =>
        t.segments.map (videoSegEntry c)).flatten ∧
    (get_video_segments c).length =
      ((c.tracks.filter fun t => t.type == "video").map fun t =>
        t.segments.length).sum ∧
    ∀ t ∈ c.tracks, t.type = "video" → ∀ s ∈ t.segments,
      (∀ mat ∈ c.materials_videos, mat.id ≠ s.material_id) →
      (videoSegEntry c s).source_path = "" := by
  refine ⟨rfl, ?_, ?_⟩
  · rw [get_video_segments, List.length_flatten, List.map_map]
    congr 1
    exact List.map_congr_left fun t _ => by simp
  · intro t _ _ s _ hdangling
    have hnone : materialsMapGet c s.material_id = none := by
      rw [materialsMapGet, List.filter_eq_nil_iff.mpr, List.getLast?_nil]
      intro m hm
      obtain ⟨mat, hmat, rfl⟩ := List.mem_map.mp hm
      simpa using hdangling mat hmat
    simp [videoSegEntry, hnone]

/-- Witness for C9: a concrete project holding one video segment whose
material id matches nothing still loads, with an empty source path. -/
theorem get_video_segments_total_witness :
    (videoSegEntry
      { tracks := [{ type := "video",
                     segments := [{ id := "s1", material_id := "ghost" }] }],
        materials_videos := [{ id := "m1", path := "/v.mp4" }] }
      { id := "s1", material_id := "ghost" }).source_path = "" :=
  (get_video_segments_total _).2.2
    { type := "video", segments := [{ id := "s1", material_id := "ghost" }] }
    (by decide) rfl { id := "s1", material_id := "ghost" } (by decide) (by decide)

/-! ### Copy-on-write duplication (`create_copy`, `core/capcut_reader.py`)

The drafts directory is modelled as a map from project-directory name (every
project lives under the same parent) to its two documents; a loaded
`CapCutProject` is its directory name plus the two in-memory documents. -/

/-- The two documents of one project directory on disk. -/
structure ProjectFiles where
  content : ContentDoc
  meta : MetaDoc
deriving DecidableEq, Repr

/-- A loaded `CapCutProject`: `project_path` (directory name) and the two
in-memory documents `_content` and `_meta`. -/
structure CapCutProjectState where
  dir : String
  content : ContentDoc
  meta : MetaDoc
deriving DecidableEq, Repr

/-- Model of `save`: stamp both documents with the modification time and write both
files of the project's directory together. -/
def save (now : Int) (p : CapCutProjectState)
    (fs : String → Option ProjectFiles) :
    CapCutProjectState × (String → Option ProjectFiles) :=
  let content' := { p.content with update_time := now }
  let meta' := { p.meta with tm_draft_modified := now }
  ({ p with content := content', meta := meta' },
    fun d => if d = p.dir then some ⟨content', meta'⟩ else fs d)

/-- Model of `create_copy(new_name)`: generate a new project id, `copytree` the
project directory to the sibling directory named by the id, load the copy,
rewrite its id (in both documents), root path and name, and save the copy.
Fails (`none`) when the source directory does not exist on disk.  `new_id`
stands for the generated uuid and `now` for the save timestamp. -/
def create_copy (new_name new_id : String) (now : Int) (parent : String)
    (p : CapCutProjectState) (fs : String → Option ProjectFiles) :
    Option (CapCutProjectState × (String → Option ProjectFiles)) :=
  match fs p.dir with
  | none => none
  | some src =>
    let fs1 : String → Option ProjectFiles :=
      fun d => if d = new_id then some src else fs d
    let copy0 : CapCutProjectState := ⟨new_id, src.content, src.meta⟩
    let copy1 : CapCutProjectState :=
      { copy0 with
        content := { copy0.content with id := new_id, name := new_name }
        meta := { copy0.meta with
                  draft_id := new_id
                  draft_root_path := parent ++ "/" ++ new_id
                  draft_name := new_name } }
    some (save now copy1 fs1)

/-- C8: `create_copy` never mutates the source project's documents — the
source directory's documents on disk are identical before and after (and the
in-memory source state is not touched at all) — while the returned copy has
the freshly generated id in both of its documents, its root path and
directory named by the new id, the new name in both documents, and its own
directory holding exactly its documents. -/
theorem create_copy_spec (new_name new_id : String) (now : Int)
    (parent : String) (p : CapCutProjectState)
    (fs : String → Option ProjectFiles) (src : ProjectFiles)
    (hsrc : fs p.dir = some src) (hfresh : new_id ≠ p.dir) :
    ∃ copy fs', create_copy new_name new_id now parent p fs = some (copy, fs') ∧
      fs' p.dir = some src ∧
      copy.dir = new_id ∧
      copy.content.id = new_id ∧ copy.meta.draft_id = new_id ∧
      copy.content.name = new_name ∧ copy.meta.draft_name = new_name ∧
      copy.meta.draft_root_path = parent ++ "/" ++ new_id ∧
      fs' new_id = some ⟨copy.content, copy.meta⟩ := by
  rw [create_copy, hsrc]
  refine ⟨_, _, rfl, ?_, rfl, rfl, rfl, rfl, rfl, rfl, ?_⟩
  · simp only [save]
    rw [if_neg (fun h => hfresh h.symm), if_neg]
    · exact hsrc
    · exact fun h => hfresh h.symm
  · simp [save]

/-- Witness for C8 at a concrete one-project filesystem. -/
theorem create_copy_spec_witness :
    ∃ copy fs',
      create_copy "Copy" "newdir" 7 "/drafts"
          ⟨"olddir", { id := "olddir", name := "Orig" }, { draft_id := "olddir" }⟩
          (fun d => if d = "olddir" then
            some ⟨{ id := "olddir", name := "Orig" }, { draft_id := "olddir" }⟩
          else none) =
        some (copy, fs') ∧
      fs' "olddir" =
        some ⟨{ id := "olddir", name := "Orig" }, { draft_id := "olddir" }⟩ ∧
      copy.dir = "newdir" ∧
      copy.content.id = "newdir" ∧ copy.meta.draft_id = "newdir" ∧
      copy.content.name = "Copy" ∧ copy.meta.draft_name = "Copy" ∧
      copy.meta.draft_root_path = "/drafts" ++ "/" ++ "newdir" ∧
      fs' "newdir" = some ⟨copy.content, copy.meta⟩ :=
  create_copy_spec "Copy" "newdir" 7 "/drafts"
    ⟨"olddir", { id := "olddir", name := "Orig" }, { draft_id := "olddir" }⟩
    _ _ (by decide) (by decide)

end SmartCut
